import Mathlib

/-!
A verification development for the seismic inverted-index core
(`src/inverted_index.rs`).  The Rust code is shallowly embedded: machine
integers become `Nat` with explicit `% 2 ^ 64` where wrap-around matters,
`f32`/`f16` scores become `ℚ`, Rust `Vec`/slices become `List`, `HashSet`
becomes `Finset`, and panics become `Option`/`Except` failures.  Components
that live outside `src/` (the sparse dataset store, the Faiss-style bounded
heap, the random-k-means routine, the distance kernels and the quantized
summary matmul) are modelled from the specification and are marked as such
in their doc comments.
-/

set_option maxHeartbeats 1000000

namespace Seismic

/-! ## Packed postings (`PostingList::pack_offset_len` / `unpack_offset_len`) -/

/-- Embeds `PostingList::pack_offset_len`: `((offset as u64) << 16) | (len as u64)`.
The `u64` shift wraps modulo `2 ^ 64`. -/
def pack_offset_len (offset len : Nat) : Nat :=
  (((offset % 2 ^ 64) <<< 16) % 2 ^ 64) ||| (len % 2 ^ 64)

/-- Embeds `PostingList::unpack_offset_len`:
`((pack >> 16) as usize, (pack & (u16::MAX as u64)) as usize)`. -/
def unpack_offset_len (pack : Nat) : Nat × Nat :=
  (pack >>> 16, pack &&& 65535)

/-- Helper shared by the pack/unpack claims: in range, packing is exact. -/
theorem pack_offset_len_eq (offset len : Nat) (ho : offset < 2 ^ 48)
    (hl : len < 2 ^ 16) : pack_offset_len offset len = 2 ^ 16 * offset + len := by
  have h1 : offset % 2 ^ 64 = offset := Nat.mod_eq_of_lt (by omega)
  have h2 : len % 2 ^ 64 = len := Nat.mod_eq_of_lt (by omega)
  have h3 : offset <<< 16 = offset * 2 ^ 16 := Nat.shiftLeft_eq offset 16
  have h4 : offset * 2 ^ 16 < 2 ^ 64 := by
    calc offset * 2 ^ 16 < 2 ^ 48 * 2 ^ 16 :=
          mul_lt_mul_of_pos_right ho (by norm_num)
      _ = 2 ^ 64 := by norm_num
  rw [pack_offset_len, h1, h2, h3, Nat.mod_eq_of_lt h4,
    Nat.mul_comm offset (2 ^ 16), ← Nat.mul_add_lt_is_or hl offset]

/-- Helper shared by the pack/unpack claims: unpacking recovers the pair. -/
theorem unpack_pack_eq (offset len : Nat) (ho : offset < 2 ^ 48)
    (hl : len < 2 ^ 16) :
    unpack_offset_len (pack_offset_len offset len) = (offset, len) := by
  rw [pack_offset_len_eq offset len ho hl, unpack_offset_len]
  have h1 : (2 ^ 16 * offset + len) >>> 16 = offset := by
    rw [Nat.shiftRight_eq_div_pow]
    omega
  have h2 : (2 ^ 16 * offset + len) &&& 65535 = len := by
    have h65 : (65535 : Nat) = 2 ^ 16 - 1 := by norm_num
    rw [h65, Nat.and_pow_two_sub_one_eq_mod]
    omega
  rw [h1, h2]

/-- C1: for every pair `(offset, length)` with `offset < 2 ^ 48` and
`length < 2 ^ 16`, `unpack_offset_len (pack_offset_len offset length)`
returns exactly `(offset, length)`. -/
theorem c1_pack_unpack_roundtrip (offset len : Nat) (ho : offset < 2 ^ 48)
    (hl : len < 2 ^ 16) :
    unpack_offset_len (pack_offset_len offset len) = (offset, len) :=
  unpack_pack_eq offset len ho hl

/-- C1 witness: the round trip at the extreme in-range pair
`(281474976710655, 65535)` from the specification's scenario list. -/
theorem c1_pack_unpack_roundtrip_witness :
    281474976710655 < 2 ^ 48 ∧ 65535 < 2 ^ 16 ∧
      unpack_offset_len (pack_offset_len 281474976710655 65535) =
        (281474976710655, 65535) :=
  ⟨by norm_num, by norm_num,
    c1_pack_unpack_roundtrip 281474976710655 65535 (by norm_num) (by norm_num)⟩

/-! ## Sorting relations

The Rust code sorts with `sort_unstable_by` on `partial_cmp`; the embedding
uses `List.insertionSort` with the corresponding relation.  Ties are left in
input order (a concrete resolution of the unstable sort's freedom). -/

/-- Sort relation: descending in the projection `f` (used for score-descending
sorts). -/
def descBy {α : Type} (f : α → ℚ) : α → α → Prop := fun a b => f b ≤ f a

/-- Sort relation: ascending in the projection `f` (used for component-id
sorts). -/
def ascBy {α : Type} (f : α → Nat) : α → α → Prop := fun a b => f a ≤ f b

instance {α : Type} (f : α → ℚ) : DecidableRel (descBy f) := fun a b =>
  inferInstanceAs (Decidable (f b ≤ f a))

instance {α : Type} (f : α → ℚ) : IsTotal α (descBy f) :=
  ⟨fun a b => le_total (f b) (f a)⟩

instance {α : Type} (f : α → ℚ) : IsTrans α (descBy f) :=
  ⟨fun _ _ _ h1 h2 => le_trans h2 h1⟩

instance {α : Type} (f : α → Nat) : DecidableRel (ascBy f) := fun a b =>
  inferInstanceAs (Decidable (f a ≤ f b))

instance {α : Type} (f : α → Nat) : IsTotal α (ascBy f) :=
  ⟨fun a b => Nat.le_total (f a) (f b)⟩

instance {α : Type} (f : α → Nat) : IsTrans α (ascBy f) :=
  ⟨fun _ _ _ h1 h2 => le_trans h1 h2⟩

/-! ## The forward index -/

/-- Modelled from the spec: `SparseDataset` (`sparse_dataset.rs`, outside
`src/`) is the forward store of variable-length sparse vectors.  Per §3 it is
three parallel buffers; here each document is its list of
`(component, value)` pairs, and `dim` is the stored dimensionality.
`vector_offset i` is the start of document `i` in the flat buffers, i.e. the
sum of the lengths of the earlier documents. -/
structure SparseDataset where
  dim : Nat
  docs : List (List (Nat × ℚ))

/-- Modelled from the spec: `SparseDataset::iter_vector`. -/
def iter_vector (ds : SparseDataset) (docId : Nat) : List (Nat × ℚ) :=
  ds.docs.getD docId []

/-- Modelled from the spec: `SparseDataset::vector_len`. -/
def vector_len (ds : SparseDataset) (docId : Nat) : Nat :=
  (iter_vector ds docId).length

/-- Modelled from the spec: `SparseDataset::vector_offset`. -/
def vector_offset (ds : SparseDataset) (docId : Nat) : Nat :=
  ((ds.docs.take docId).map List.length).sum

/-! ## Summarization strategies (`fixed_size_summary`, `energy_preserving_summary`) -/

/-- One `hash.entry(c).and_modify(max).or_insert(v)` step of the summary
builders, on an association list keyed by component id. -/
def upsertMax : List (Nat × ℚ) → Nat → ℚ → List (Nat × ℚ)
  | [], c, v => [(c, v)]
  | p :: rest, c, v =>
      if p.1 = c then (p.1, if p.2 < v then v else p.2) :: rest
      else p :: upsertMax rest c v

/-- The per-component maximum over a block, as both summary builders compute
it: iterate the block's documents and fold every `(component, value)` pair
into the map. -/
def maxUnion (ds : SparseDataset) (block : List Nat) : List (Nat × ℚ) :=
  block.foldl (fun m d => (iter_vector ds d).foldl (fun m p => upsertMax m p.1 p.2) m) []

/-- `hash[&k]` on the association list (`0` when absent; the builders only
look up keys that are present). -/
def lookupD : List (Nat × ℚ) → Nat → ℚ
  | [], _ => 0
  | p :: rest, c => if p.1 = c then p.2 else lookupD rest c

/-- The prefix loop of `energy_preserving_summary`: push each entry, stop as
soon as `acc / total_sum > fraction`. -/
def energy_preserving_take (fraction total : ℚ) : ℚ → List (Nat × ℚ) → List (Nat × ℚ)
  | _, [] => []
  | acc, p :: rest =>
      p :: (if (acc + p.2) / total > fraction then []
            else energy_preserving_take fraction total (acc + p.2) rest)

/-- Embeds `PostingList::energy_preserving_summary`: per-component maxima,
sorted by value descending; accumulate until the mass fraction is exceeded;
sort the kept ids and read their values back from the map. -/
def energy_preserving_summary (ds : SparseDataset) (block : List Nat)
    (fraction : ℚ) : List (Nat × ℚ) :=
  let m := maxUnion ds block
  let sorted := m.insertionSort (descBy Prod.snd)
  let total := sorted.foldl (fun s p => s + p.2) 0
  let pref := energy_preserving_take fraction total 0 sorted
  let termIds := (pref.map Prod.fst).insertionSort (· ≤ ·)
  termIds.map (fun c => (c, lookupD m c))

/-- Embeds `PostingList::fixed_size_summary`: per-component maxima, sorted by
value descending, truncated to `n_components`, re-sorted by component id. -/
def fixed_size_summary (ds : SparseDataset) (block : List Nat)
    (nComponents : Nat) : List (Nat × ℚ) :=
  let m := maxUnion ds block
  let kept := (m.insertionSort (descBy Prod.snd)).take nComponents
  let byId := kept.insertionSort (ascBy Prod.fst)
  byId.map (fun p => (p.1, lookupD m p.1))

/-- The spec's wording of the energy prefix: take the shortest prefix of the
value-descending list whose cumulative sum exceeds `fraction × total_sum`. -/
def minimal_energy_take (fraction total : ℚ) : ℚ → List (Nat × ℚ) → List (Nat × ℚ)
  | _, [] => []
  | acc, p :: rest =>
      p :: (if fraction * total < acc + p.2 then []
            else minimal_energy_take fraction total (acc + p.2) rest)

/-- The spec's wording of `EnergyPreserving` summarization (§4.E), for the
refinement claim C6: per-component maximum, value-descending order, shortest
prefix exceeding `fraction × total_sum`, re-sorted by component id. -/
def energy_summary_spec (ds : SparseDataset) (block : List Nat)
    (fraction : ℚ) : List (Nat × ℚ) :=
  let m := maxUnion ds block
  let sorted := m.insertionSort (descBy Prod.snd)
  let total := (sorted.map Prod.snd).sum
  (minimal_energy_take fraction total 0 sorted).insertionSort (ascBy Prod.fst)

/-! ### Facts about the summary builders -/

/-- `upsertMax` touches only the value of an existing key or appends a new one. -/
theorem upsertMax_keys (m : List (Nat × ℚ)) (c : Nat) (v : ℚ) :
    (upsertMax m c v).map Prod.fst =
      if c ∈ m.map Prod.fst then m.map Prod.fst else m.map Prod.fst ++ [c] := by
  induction m with
  | nil => simp [upsertMax]
  | cons p rest ih =>
      by_cases hp : p.1 = c
      · simp [upsertMax, hp]
      · simp only [upsertMax, if_neg hp, List.map_cons, ih]
        by_cases hc : c ∈ rest.map Prod.fst
        · simp [hc, Ne.symm hp]
        · simp [hc, Ne.symm hp]

/-- `upsertMax` preserves distinctness of the keys. -/
theorem upsertMax_keys_nodup {m : List (Nat × ℚ)} (c : Nat) (v : ℚ)
    (h : (m.map Prod.fst).Nodup) : ((upsertMax m c v).map Prod.fst).Nodup := by
  rw [upsertMax_keys]
  by_cases hc : c ∈ m.map Prod.fst
  · simpa [hc] using h
  · simp [List.nodup_append, h, hc]

/-- Folding `upsertMax` over any list of pairs preserves key distinctness. -/
theorem foldl_upsertMax_keys_nodup (ps : List (Nat × ℚ)) :
    ∀ (m : List (Nat × ℚ)), (m.map Prod.fst).Nodup →
      ((ps.foldl (fun m p => upsertMax m p.1 p.2) m).map Prod.fst).Nodup := by
  induction ps with
  | nil => intro m h; simpa using h
  | cons p rest ih => intro m h; exact ih _ (upsertMax_keys_nodup p.1 p.2 h)

/-- Folding whole documents into the map preserves key distinctness. -/
theorem foldl_docs_keys_nodup (ds : SparseDataset) (block : List Nat) :
    ∀ (m : List (Nat × ℚ)), (m.map Prod.fst).Nodup →
      ((block.foldl
          (fun m d => (iter_vector ds d).foldl (fun m p => upsertMax m p.1 p.2) m)
          m).map Prod.fst).Nodup := by
  induction block with
  | nil => intro m h; simpa using h
  | cons d rest ih =>
      intro m h
      exact ih _ (foldl_upsertMax_keys_nodup (iter_vector ds d) m h)

/-- The keys of the per-component maximum map are distinct. -/
theorem maxUnion_keys_nodup (ds : SparseDataset) (block : List Nat) :
    ((maxUnion ds block).map Prod.fst).Nodup :=
  foldl_docs_keys_nodup ds block [] (by simp)

/-- Looking a present key up in a key-distinct map returns its value. -/
theorem lookupD_of_mem {m : List (Nat × ℚ)} {c : Nat} {v : ℚ}
    (hnd : (m.map Prod.fst).Nodup) (hmem : (c, v) ∈ m) : lookupD m c = v := by
  induction m with
  | nil => cases hmem
  | cons p rest ih =>
      rcases List.mem_cons.mp hmem with h | h
      · cases h; simp [lookupD]
      · have hne : p.1 ≠ c := by
          intro he
          have hcm : c ∈ rest.map Prod.fst := List.mem_map.mpr ⟨(c, v), h, rfl⟩
          exact (List.nodup_cons.mp hnd).1 (by rw [he]; exact hcm)
        simp only [lookupD, if_neg hne]
        exact ih (List.nodup_cons.mp hnd).2 h

/-- The energy prefix loop keeps a sublist (in fact a prefix) of its input. -/
theorem energy_preserving_take_sublist (fraction total : ℚ) :
    ∀ (acc : ℚ) (l : List (Nat × ℚ)),
      (energy_preserving_take fraction total acc l).Sublist l := by
  intro acc l
  induction l generalizing acc with
  | nil => simp [energy_preserving_take]
  | cons p rest ih =>
      rw [energy_preserving_take]
      by_cases h : (acc + p.2) / total > fraction
      · simp only [if_pos h]
        exact (List.nil_sublist rest).cons₂ p
      · simpa [h] using (ih (acc + p.2)).cons₂ p

/-- With a positive total mass, the code's ratio test agrees with the spec's
threshold test, so the two prefix loops coincide. -/
theorem energy_preserving_take_eq_minimal (fraction total : ℚ)
    (htotal : 0 < total) :
    ∀ (acc : ℚ) (l : List (Nat × ℚ)),
      energy_preserving_take fraction total acc l =
        minimal_energy_take fraction total acc l := by
  intro acc l
  induction l generalizing acc with
  | nil => rfl
  | cons p rest ih =>
      rw [energy_preserving_take, minimal_energy_take]
      have hiff : ((acc + p.2) / total > fraction) ↔
          (fraction * total < acc + p.2) := by
        rw [gt_iff_lt, lt_div_iff₀ htotal]
      by_cases h : (acc + p.2) / total > fraction
      · rw [if_pos h, if_pos (hiff.mp h)]
      · rw [if_neg h, if_neg (fun hc => h (hiff.mpr hc)), ih]

/-- C6: `energy_preserving_summary` refines the spec's description — the
per-component maxima restricted to the shortest value-descending prefix whose
cumulative sum exceeds `fraction × total_sum`, re-sorted by component id —
whenever the block's total summary mass is positive. -/
theorem c6_energy_preserving_refines_spec (ds : SparseDataset) (block : List Nat)
    (fraction : ℚ) (htotal : 0 < ((maxUnion ds block).map Prod.snd).sum) :
    energy_preserving_summary ds block fraction =
      energy_summary_spec ds block fraction := by
  rw [energy_preserving_summary, energy_summary_spec]
  set m := maxUnion ds block with hm
  set sorted := m.insertionSort (descBy Prod.snd) with hsorted
  have hperm : sorted.Perm m := List.perm_insertionSort _ m
  have htot_eq : sorted.foldl (fun s p => s + p.2) 0 = (sorted.map Prod.snd).sum := by
    rw [List.sum_eq_foldl, List.foldl_map]
  have htot_pos : 0 < (sorted.map Prod.snd).sum := by
    rwa [(hperm.map Prod.snd).sum_eq]
  rw [htot_eq, energy_preserving_take_eq_minimal _ _ htot_pos]
  set pref := minimal_energy_take fraction ((sorted.map Prod.snd).sum) 0 sorted
    with hpref
  have hprefsub : pref.Sublist sorted := by
    rw [hpref, ← energy_preserving_take_eq_minimal _ _ htot_pos]
    exact energy_preserving_take_sublist _ _ 0 sorted
  have hkeys_m : (m.map Prod.fst).Nodup := maxUnion_keys_nodup ds block
  have hkeys_sorted : (sorted.map Prod.fst).Nodup :=
    (hperm.map Prod.fst).nodup_iff.mpr hkeys_m
  have hkeys_pref : (pref.map Prod.fst).Nodup :=
    (hprefsub.map Prod.fst).nodup hkeys_sorted
  -- the spec-side result
  set q := pref.insertionSort (ascBy Prod.fst) with hq
  have hqperm : q.Perm pref := List.perm_insertionSort _ pref
  -- Step A: the sorted id list is exactly the ids of the spec-side result
  have hids : (pref.map Prod.fst).insertionSort (· ≤ ·) = q.map Prod.fst := by
    have h1 : List.Sorted (· ≤ ·) ((pref.map Prod.fst).insertionSort (· ≤ ·)) :=
      List.sorted_insertionSort _ _
    have h2 : List.Sorted (· ≤ ·) (q.map Prod.fst) :=
      List.pairwise_map.mpr (List.sorted_insertionSort (ascBy Prod.fst) pref)
    exact List.eq_of_perm_of_sorted
      ((List.perm_insertionSort _ _).trans (hqperm.map Prod.fst).symm) h1 h2
  rw [hids]
  -- Step B: re-reading the values from the map reassembles the pairs
  have hlook : ∀ p ∈ q, lookupD m p.1 = p.2 := by
    intro p hp
    have hpm : p ∈ m := hperm.mem_iff.mp (hprefsub.mem (hqperm.mem_iff.mp hp))
    exact lookupD_of_mem hkeys_m hpm
  rw [List.map_map]
  refine (List.map_congr_left ?_).trans (List.map_id q)
  intro p hp
  simp only [Function.comp_apply]
  rw [hlook p hp, Prod.mk.eta]
  rfl

/-- The two-vector block dataset of the spec's scenario 5:
`v1 = {(0,0.2),(1,0.9)}`, `v2 = {(0,0.7),(1,0.1),(2,0.5)}`. -/
def exampleBlockDataset : SparseDataset :=
  ⟨3, [[(0, 1/5), (1, 9/10)], [(0, 7/10), (1, 1/10), (2, 1/2)]]⟩

/-- C6 witness: on the spec's scenario-5 block with fraction `0.5`, the
summary is `{(0, 0.7), (1, 0.9)}`, and it agrees with the spec-side
definition. -/
theorem c6_energy_preserving_refines_spec_witness :
    0 < ((maxUnion exampleBlockDataset [0, 1]).map Prod.snd).sum ∧
    energy_preserving_summary exampleBlockDataset [0, 1] (1/2) =
      energy_summary_spec exampleBlockDataset [0, 1] (1/2) ∧
    energy_preserving_summary exampleBlockDataset [0, 1] (1/2) =
      [(0, 7/10), (1, 9/10)] :=
  ⟨by norm_num [maxUnion, iter_vector, upsertMax, exampleBlockDataset],
   c6_energy_preserving_refines_spec exampleBlockDataset [0, 1] (1/2)
     (by norm_num [maxUnion, iter_vector, upsertMax, exampleBlockDataset]),
   by norm_num [energy_preserving_summary, maxUnion, iter_vector, upsertMax,
     energy_preserving_take, lookupD, exampleBlockDataset, List.insertionSort,
     List.orderedInsert, descBy, ascBy]⟩

/-! ## Pruning strategies (`fixed_pruning`, `global_threshold_pruning`) -/

/-- Embeds the `PruningStrategy` enum of `inverted_index.rs`. -/
inductive PruningStrategy where
  | fixedSize (nPostings : Nat)
  | globalThreshold (nPostings : Nat) (maxFraction : ℚ)

/-- Embeds `InvertedIndex::fixed_pruning`: every posting list is sorted by
score descending and truncated to `n_postings`. -/
def fixed_pruning (invertedPairs : List (List (ℚ × Nat))) (nPostings : Nat) :
    List (List (ℚ × Nat)) :=
  invertedPairs.map (fun l => (l.insertionSort (descBy Prod.fst)).take nPostings)

/-- The pooling loop of `global_threshold_pruning`: every posting becomes a
`(score, doc_id, id_posting_list)` triple. -/
def poolOf (invertedPairs : List (List (ℚ × Nat))) : List (ℚ × Nat × Nat) :=
  (invertedPairs.enum.map (fun e => e.2.map (fun p => (p.1, p.2, e.1)))).flatten

/-- The re-dispersal loop of `global_threshold_pruning`:
`inverted_pairs[id_posting].push((score, docid))` over the retained triples. -/
def disperse (buckets : List (List (ℚ × Nat))) (triples : List (ℚ × Nat × Nat)) :
    List (List (ℚ × Nat)) :=
  triples.foldl
    (fun bs t => bs.set t.2.2 (bs.getD t.2.2 [] ++ [(t.1, t.2.1)])) buckets

/-- Embeds `InvertedIndex::global_threshold_pruning`.  The Rust
`select_nth_unstable_by(tot, descending) … take(tot)` keeps some `tot`
top-scoring triples; the embedding resolves the unstable selection by a
(stable) full sort and `take`, which keeps the same multiset up to
tie-breaking.  `postings.len() - 1` panics (underflow / out-of-bounds
selection) on an empty pool, embedded as `none`. -/
def global_threshold_pruning (invertedPairs : List (List (ℚ × Nat)))
    (nPostings : Nat) : Option (List (List (ℚ × Nat))) :=
  let pool := poolOf invertedPairs
  if pool.length = 0 then none
  else
    let tot := min (invertedPairs.length * nPostings) (pool.length - 1)
    let sorted := pool.insertionSort (descBy Prod.fst)
    some (disperse (List.replicate invertedPairs.length []) (sorted.take tot))

/-- The `(n_postings as f32 * max_fraction) as usize` cap that
`InvertedIndex::build` applies after global-threshold pruning (the float →
usize cast truncates toward zero and saturates below at `0`). -/
def prune_cap (nPostings : Nat) (maxFraction : ℚ) : Nat :=
  (⌊(nPostings : ℚ) * maxFraction⌋).toNat

/-- Embeds the pruning dispatch of `InvertedIndex::build` (lines 183–198). -/
def apply_pruning : PruningStrategy → List (List (ℚ × Nat)) →
    Option (List (List (ℚ × Nat)))
  | .fixedSize n, lists => some (fixed_pruning lists n)
  | .globalThreshold n f, lists =>
      (global_threshold_pruning lists n).map
        (fun mid => fixed_pruning mid (prune_cap n f))

/-- The triples `global_threshold_pruning` retains (the top
`min(D · n_postings, pool − 1)` by descending score). -/
def retainedPostings (invertedPairs : List (List (ℚ × Nat))) (nPostings : Nat) :
    List (ℚ × Nat × Nat) :=
  ((poolOf invertedPairs).insertionSort (descBy Prod.fst)).take
    (min (invertedPairs.length * nPostings) ((poolOf invertedPairs).length - 1))

/-- The triples `global_threshold_pruning` drops. -/
def droppedPostings (invertedPairs : List (List (ℚ × Nat))) (nPostings : Nat) :
    List (ℚ × Nat × Nat) :=
  ((poolOf invertedPairs).insertionSort (descBy Prod.fst)).drop
    (min (invertedPairs.length * nPostings) ((poolOf invertedPairs).length - 1))

/-! ### Facts about dispersal -/

/-- Dispersal keeps the number of buckets. -/
theorem disperse_length (triples : List (ℚ × Nat × Nat)) :
    ∀ buckets, (disperse buckets triples).length = buckets.length := by
  induction triples with
  | nil => intro bs; rfl
  | cons t ts ih =>
      intro bs
      rw [disperse, List.foldl_cons, ← disperse]
      rw [ih, List.length_set]

/-- Setting an index to its current value with one element appended grows the
total length by one. -/
theorem sum_map_length_set_append (x : ℚ × Nat) :
    ∀ (bs : List (List (ℚ × Nat))) (j : Nat), j < bs.length →
      (((bs.set j (bs.getD j [] ++ [x])).map List.length).sum : Nat) =
        ((bs.map List.length).sum) + 1 := by
  intro bs
  induction bs with
  | nil => intro j h; cases h
  | cons b rest ih =>
      intro j h
      cases j with
      | zero => simp [List.getD]; omega
      | succ j =>
          have hj : j < rest.length := by simpa using h
          rw [List.getD_cons_succ]
          show (List.map List.length
              (b :: rest.set j (rest.getD j [] ++ [x]))).sum = _
          simp only [List.map_cons, List.sum_cons, ih j hj]
          omega

/-- Dispersal with in-range ids grows the total length by one per triple. -/
theorem disperse_sum_length (triples : List (ℚ × Nat × Nat)) :
    ∀ buckets, (∀ t ∈ triples, t.2.2 < buckets.length) →
      (((disperse buckets triples).map List.length).sum : Nat) =
        ((buckets.map List.length).sum) + triples.length := by
  induction triples with
  | nil => intro bs _; rfl
  | cons t ts ih =>
      intro bs hlt
      rw [disperse, List.foldl_cons, ← disperse]
      rw [ih _ (by intro u hu; rw [List.length_set]; exact hlt u (List.mem_cons_of_mem t hu))]
      rw [sum_map_length_set_append _ bs t.2.2 (hlt t (List.mem_cons_self t ts))]
      simp [Nat.add_assoc, Nat.add_comm 1]

/-- `getD` after `set` at the same index. -/
theorem getD_set_self {α : Type} (l : List α) (i : Nat) (v d : α)
    (h : i < l.length) : (l.set i v).getD i d = v := by
  rw [List.getD_eq_getElem?_getD, List.getElem?_set_self h]
  rfl

/-- `getD` after `set` at a different index. -/
theorem getD_set_ne {α : Type} (l : List α) {i j : Nat} (v d : α)
    (h : i ≠ j) : (l.set i v).getD j d = l.getD j d := by
  rw [List.getD_eq_getElem?_getD, List.getElem?_set_ne h,
    ← List.getD_eq_getElem?_getD]

/-- Bucket `j` after dispersal holds its previous content followed by the
dispatched pairs of the triples whose list id is `j`, in order. -/
theorem disperse_getD (j : Nat) (triples : List (ℚ × Nat × Nat)) :
    ∀ buckets, (∀ t ∈ triples, t.2.2 < buckets.length) →
      (disperse buckets triples).getD j [] =
        buckets.getD j [] ++
          (triples.filter (fun t => t.2.2 == j)).map (fun t => (t.1, t.2.1)) := by
  induction triples with
  | nil => intro bs _; simp [disperse]
  | cons t ts ih =>
      intro bs hlt
      rw [disperse, List.foldl_cons, ← disperse]
      rw [ih _ (by intro u hu; rw [List.length_set]; exact hlt u (List.mem_cons_of_mem t hu))]
      by_cases hj : t.2.2 = j
      · subst hj
        rw [getD_set_self _ _ _ _ (hlt t (List.mem_cons_self t ts))]
        simp [List.filter_cons, List.append_assoc]
      · rw [getD_set_ne _ _ _ hj]
        have : (t.2.2 == j) = false := by simpa using hj
        simp [List.filter_cons, this]

/-- Every pooled triple's list id indexes one of the buckets. -/
theorem poolOf_ids_lt (lists : List (List (ℚ × Nat))) :
    ∀ t ∈ poolOf lists, t.2.2 < lists.length := by
  intro t ht
  simp only [poolOf, List.mem_flatten, List.mem_map] at ht
  obtain ⟨l', ⟨e, he, rfl⟩, htl⟩ := ht
  obtain ⟨p, _, rfl⟩ := List.mem_map.mp htl
  exact List.fst_lt_of_mem_enum he

/-- `getD` on `replicate`. -/
theorem getD_replicate {α : Type} (n j : Nat) (a d : α) (h : j < n) :
    (List.replicate n a).getD j d = a := by
  rw [List.getD_eq_getElem?_getD, List.getElem?_replicate, if_pos h]
  rfl

/-- C3 counterexample: with one posting list of three triples and
`n_postings = 10`, the claim would retain all three postings (3 < 10 · 1),
but `global_threshold_pruning` caps the selection at `pool − 1 = 2`. -/
theorem c3_global_threshold_keeps_all_counterexample :
    global_threshold_pruning [[((1 : ℚ), 0), (2, 1), (3, 2)]] 10 =
      some [[((3 : ℚ), 2), (2, 1)]] ∧
    (([[((3 : ℚ), 2), (2, 1)]] : List (List (ℚ × Nat))).map List.length).sum = 2 ∧
    (2 : Nat) ≠ 3 := by
  refine ⟨?_, by norm_num, by norm_num⟩
  norm_num [global_threshold_pruning, poolOf, disperse, List.insertionSort,
    List.orderedInsert, descBy]

/-- C3 amended: `global_threshold_pruning` pools every
`(score, doc_id, list_id)` triple and retains the top
`min(n_postings · D, P − 1)` by descending score — always dropping at least
one triple when `P ≤ n_postings · D`, and panicking on an empty pool —
re-dispersing each retained triple into its original bucket (in retained
order), before the per-list cap is applied. -/
theorem c3_global_threshold_pruning_amended (lists : List (List (ℚ × Nat)))
    (n : Nat) (out : List (List (ℚ × Nat)))
    (h : global_threshold_pruning lists n = some out) :
    out.length = lists.length ∧
    (out.map List.length).sum =
      min (lists.length * n) ((poolOf lists).length - 1) ∧
    (∀ j, j < lists.length →
      out.getD j [] = ((retainedPostings lists n).filter
          (fun t => t.2.2 == j)).map (fun t => (t.1, t.2.1))) ∧
    (∀ x ∈ retainedPostings lists n, ∀ y ∈ droppedPostings lists n,
      y.1 ≤ x.1) := by
  rw [global_threshold_pruning] at h
  by_cases hp : (poolOf lists).length = 0
  · rw [if_pos hp] at h; cases h
  rw [if_neg hp] at h
  injection h with h
  subst h
  set tot := min (lists.length * n) ((poolOf lists).length - 1) with htot
  set sorted := (poolOf lists).insertionSort (descBy Prod.fst) with hsorted
  have hperm : sorted.Perm (poolOf lists) := List.perm_insertionSort _ _
  have hlen : sorted.length = (poolOf lists).length := hperm.length_eq
  have hids : ∀ t ∈ sorted.take tot, t.2.2 < lists.length := by
    intro t ht
    exact poolOf_ids_lt lists t (hperm.mem_iff.mp (List.mem_of_mem_take ht))
  have hids' : ∀ t ∈ sorted.take tot, t.2.2 < (List.replicate lists.length
      ([] : List (ℚ × Nat))).length := by
    intro t ht; rw [List.length_replicate]; exact hids t ht
  refine ⟨?_, ?_, ?_, ?_⟩
  · rw [disperse_length, List.length_replicate]
  · rw [disperse_sum_length _ _ hids']
    have h1 : ((List.replicate lists.length ([] : List (ℚ × Nat))).map
        List.length).sum = 0 := by simp
    have h2 : (sorted.take tot).length = tot := by
      rw [List.length_take, hlen]
      omega
    rw [h1, h2]
    omega
  · intro j hj
    rw [disperse_getD _ _ _ hids', getD_replicate _ _ _ _ hj]
    rw [List.nil_append]
    rfl
  · have hsort : List.Sorted (descBy Prod.fst) sorted :=
      List.sorted_insertionSort _ _
    have hsplit := List.take_append_drop tot sorted
    rw [← hsplit] at hsort
    have := (List.pairwise_append.mp hsort).2.2
    intro x hx y hy
    exact this x hx y hy

/-- C3 amended witness: at the concrete three-triple pool with
`n_postings = 10` and one list, the pruning keeps `min(10, 2) = 2` triples,
re-disperses them into the single bucket, and every retained score dominates
every dropped score. -/
theorem c3_global_threshold_pruning_amended_witness :
    global_threshold_pruning [[((1 : ℚ), 0), (2, 1), (3, 2)]] 10 =
      some [[((3 : ℚ), 2), (2, 1)]] ∧
    ([[((3 : ℚ), 2), (2, 1)]] : List (List (ℚ × Nat))).length = 1 ∧
    (([[((3 : ℚ), 2), (2, 1)]] : List (List (ℚ × Nat))).map List.length).sum =
      min ((([[((1 : ℚ), 0), (2, 1), (3, 2)]] :
          List (List (ℚ × Nat))).length) * 10)
        ((poolOf [[((1 : ℚ), 0), (2, 1), (3, 2)]]).length - 1) ∧
    (∀ x ∈ retainedPostings [[((1 : ℚ), 0), (2, 1), (3, 2)]] 10,
      ∀ y ∈ droppedPostings [[((1 : ℚ), 0), (2, 1), (3, 2)]] 10,
        y.1 ≤ x.1) := by
  have he : global_threshold_pruning [[((1 : ℚ), 0), (2, 1), (3, 2)]] 10 =
      some [[((3 : ℚ), 2), (2, 1)]] := by
    norm_num [global_threshold_pruning, poolOf, disperse, List.insertionSort,
      List.orderedInsert, descBy]
  have h := c3_global_threshold_pruning_amended
    [[((1 : ℚ), 0), (2, 1), (3, 2)]] 10 [[((3 : ℚ), 2), (2, 1)]] he
  exact ⟨he, h.1, h.2.1, h.2.2.2⟩

/-- C4: after global-threshold pruning, `InvertedIndex::build` applies the
per-list cap `(n_postings as f32 * max_fraction) as usize`, so every posting
list has length at most `⌈n_postings · max_fraction⌉`. -/
theorem c4_global_threshold_cap (lists : List (List (ℚ × Nat))) (n : Nat)
    (f : ℚ) (out : List (List (ℚ × Nat)))
    (h : apply_pruning (.globalThreshold n f) lists = some out) :
    ∀ l ∈ out, l.length ≤ (⌈(n : ℚ) * f⌉).toNat := by
  rw [apply_pruning] at h
  obtain ⟨mid, _, rfl⟩ := Option.map_eq_some'.mp h
  intro l hl
  obtain ⟨l', _, rfl⟩ := List.mem_map.mp hl
  calc (List.take (prune_cap n f) (l'.insertionSort (descBy Prod.fst))).length
      ≤ prune_cap n f := by
        rw [List.length_take]; exact Nat.min_le_left _ _
    _ ≤ (⌈(n : ℚ) * f⌉).toNat :=
        Int.toNat_le_toNat (Int.floor_le_ceil _)

/-- C4 witness: with `n_postings = 10` and `max_fraction = 1.5` on a concrete
build, every pruned list has at most `⌈10 · 1.5⌉ = 15` entries. -/
theorem c4_global_threshold_cap_witness :
    apply_pruning (.globalThreshold 10 (3 / 2)) [[((1 : ℚ), 0), (2, 1), (3, 2)]] =
      some [[((3 : ℚ), 2), (2, 1)]] ∧
    (∀ l ∈ [[((3 : ℚ), 2), (2, 1)]],
      l.length ≤ (⌈(10 : ℚ) * (3 / 2)⌉).toNat) ∧
    (⌈(10 : ℚ) * (3 / 2)⌉).toNat = 15 := by
  have he : apply_pruning (.globalThreshold 10 (3 / 2))
      [[((1 : ℚ), 0), (2, 1), (3, 2)]] = some [[((3 : ℚ), 2), (2, 1)]] := by
    norm_num [apply_pruning, global_threshold_pruning, poolOf, disperse,
      fixed_pruning, prune_cap, List.insertionSort, List.orderedInsert, descBy]
  exact ⟨he, fun l hl =>
    c4_global_threshold_cap [[((1 : ℚ), 0), (2, 1), (3, 2)]] 10 (3 / 2)
      [[((3 : ℚ), 2), (2, 1)]] he l hl, by
        rw [show (⌈(10 : ℚ) * (3 / 2)⌉) = 15 by norm_num]; rfl⟩

/-! ## Blocking strategies (`fixed_size_blocking`, `blocking_with_random_kmeans`) -/

/-- Embeds the `BlockingStrategy` enum of `inverted_index.rs`. -/
inductive BlockingStrategy where
  | fixedSize (blockSize : Nat)
  | randomKmeans (centroidFraction : ℚ) (truncatedKmeansTraining : Bool)
      (truncationSize : Nat) (minClusterSize : Nat)

/-- Embeds the `SummarizationStrategy` enum (the source spells it
`EnergyPerserving`). -/
inductive SummarizationStrategy where
  | fixedSize (nComponents : Nat)
  | energyPerserving (summaryEnergy : ℚ)

/-- Embeds the `Configuration` struct. -/
structure Configuration where
  pruning : PruningStrategy
  blocking : BlockingStrategy
  summarization : SummarizationStrategy

/-- Embeds `PostingList::fixed_size_blocking`: offsets
`0, block_size, …, (len/block_size − 1)·block_size` followed by `len`. -/
def fixed_size_blocking (postingList : List Nat) (blockSize : Nat) : List Nat :=
  ((List.range (postingList.length / blockSize)).map (fun i => i * blockSize)) ++
    [postingList.length]

/-- The `block_offsets` loop of `blocking_with_random_kmeans`: running totals
after each non-empty cluster. -/
def kmeansOffsets : Nat → List (List Nat) → List Nat
  | _, [] => []
  | n, c :: cs =>
      if c.isEmpty then kmeansOffsets n cs
      else (n + c.length) :: kmeansOffsets (n + c.length) cs

/-- The clusters RandomKmeans blocking works with:
`do_random_kmeans_on_docids(posting_list, n_centroids, dataset,
min_cluster_size)` with `n_centroids = max(⌊centroid_fraction · n⌋, 1)`.
The clustering routine itself lives outside `src/` (in `utils`) and is a
parameter, modelled from the spec, which requires it to partition the
posting list. -/
def kmeans_clusters (kmeans : List Nat → Nat → Nat → List (List Nat))
    (centroidFraction : ℚ) (minClusterSize : Nat) (postingList : List Nat) :
    List (List Nat) :=
  kmeans postingList (max (⌊centroidFraction * postingList.length⌋).toNat 1)
    minClusterSize

/-- The reordered posting list RandomKmeans blocking produces: the
concatenation of the clusters. -/
def kmeans_reordered (kmeans : List Nat → Nat → Nat → List (List Nat))
    (centroidFraction : ℚ) (minClusterSize : Nat) (postingList : List Nat) :
    List Nat :=
  (kmeans_clusters kmeans centroidFraction minClusterSize postingList).flatten

/-- Embeds `PostingList::blocking_with_random_kmeans`: empty lists get empty
offsets; the truncated-k-means path is `todo!()` (an error); otherwise the
posting list is reordered cluster by cluster, with the running totals after
each non-empty cluster as offsets, and the `assert_eq!` on the reordered
length is an error when the clustering does not cover the list.  Returns
`(block_offsets, reordered posting list)`. -/
def blocking_with_random_kmeans (kmeans : List Nat → Nat → Nat → List (List Nat))
    (postingList : List Nat) (centroidFraction : ℚ) (truncated : Bool)
    (_truncationSize : Nat) (minClusterSize : Nat) :
    Except String (List Nat × List Nat) :=
  if postingList.isEmpty then .ok ([], postingList)
  else if truncated then .error "not implemented"
  else if (kmeans_reordered kmeans centroidFraction minClusterSize
      postingList).length = postingList.length then
    .ok (0 :: kmeansOffsets 0
          (kmeans_clusters kmeans centroidFraction minClusterSize postingList),
        kmeans_reordered kmeans centroidFraction minClusterSize postingList)
  else .error "reordered length mismatch"

/-- The number of blocks a `block_offsets` array describes (its window
count, which is also the number of summaries `PostingList::build` emits). -/
def num_blocks (blockOffsets : List Nat) : Nat := blockOffsets.length - 1

/-- The sizes of the blocks described by a `block_offsets` array. -/
def offset_diffs (blockOffsets : List Nat) : List Nat :=
  (blockOffsets.zip blockOffsets.tail).map (fun w => w.2 - w.1)

/-! ### Facts about fixed-size blocking -/

/-- `offset_diffs` on a cons of a cons. -/
theorem offset_diffs_cons (a b : Nat) (t : List Nat) :
    offset_diffs (a :: b :: t) = (b - a) :: offset_diffs (b :: t) := rfl

/-- The strided range is a `range'`. -/
theorem range_map_mul (s k : Nat) :
    (List.range k).map (fun i => i * s) = List.range' 0 k s := by
  induction k with
  | zero => rfl
  | succ k ih =>
      rw [List.range_succ, List.map_append, ih, List.range'_concat]
      simp [Nat.mul_comm]

/-- Block sizes of a strided offset list closed by `n`. -/
theorem offset_diffs_range' (s n : Nat) :
    ∀ (k a : Nat), a + k * s ≤ n →
      offset_diffs (List.range' a (k + 1) s ++ [n]) =
        List.replicate k s ++ [n - (a + k * s)] := by
  intro k
  induction k with
  | zero =>
      intro a _
      simp only [List.range'_succ, List.range']
      simp [offset_diffs]
  | succ k ih =>
      intro a hle
      have hmul : (k + 1) * s = k * s + s := Nat.succ_mul k s
      rw [List.range'_succ, List.cons_append]
      rw [List.range'_succ, List.cons_append, offset_diffs_cons,
        ← List.cons_append, ← List.range'_succ]
      rw [ih (a + s) (by omega)]
      have hd : a + s - a = s := by omega
      have htail : n - (a + s + k * s) = n - (a + (k + 1) * s) := by omega
      rw [hd, htail, List.replicate_succ]
      rfl

/-- C10 counterexample: a posting list of 5 documents with
`block_size = 10` yields `block_offsets = [5]` — zero blocks, not the single
block of 5 postings the claim describes (and the offsets do not start
at 0). -/
theorem c10_fixed_size_blocking_counterexample :
    fixed_size_blocking [10, 11, 12, 13, 14] 10 = [5] ∧
    num_blocks (fixed_size_blocking [10, 11, 12, 13, 14] 10) = 0 ∧
    max 1 (5 / 10) = 1 ∧ (0 : Nat) ≠ 1 := by
  refine ⟨?_, ?_, by norm_num, by norm_num⟩ <;> rfl

/-- C10 amended: with `block_size = s ≥ 1` on a posting list of length `n`,
`fixed_size_blocking` describes `⌊n/s⌋` blocks.  When `s ≤ n` the offsets
start at `0` and the block sizes are `s, …, s, s + n mod s` (the remainder
is folded into the final block); when `n < s` the offset array is the single
entry `[n]`, describing zero blocks — not one block of `n` postings. -/
theorem c10_fixed_size_blocking_amended (postingList : List Nat) (s : Nat)
    (hs : 1 ≤ s) :
    num_blocks (fixed_size_blocking postingList s) = postingList.length / s ∧
    (s ≤ postingList.length →
      (fixed_size_blocking postingList s).head? = some 0 ∧
      offset_diffs (fixed_size_blocking postingList s) =
        List.replicate (postingList.length / s - 1) s ++
          [s + postingList.length % s]) ∧
    (postingList.length < s →
      fixed_size_blocking postingList s = [postingList.length]) := by
  set n := postingList.length with hn
  refine ⟨?_, ?_, ?_⟩
  · rw [num_blocks, fixed_size_blocking, List.length_append,
      List.length_map, List.length_range]
    simp
  · intro hsn
    have hk : 1 ≤ n / s := (Nat.one_le_div_iff (by omega)).mpr hsn
    constructor
    · rw [fixed_size_blocking, range_map_mul]
      obtain ⟨k', hk'⟩ : ∃ k', n / s = k' + 1 := ⟨n / s - 1, by omega⟩
      rw [← hn, hk', List.range'_succ]
      rfl
    · rw [fixed_size_blocking, range_map_mul, ← hn]
      have hdm := Nat.div_add_mod n s
      have hmul : (n / s - 1) * s = s * (n / s) - s := by
        rw [Nat.sub_one_mul, Nat.mul_comm]
      have hsa : s * 1 ≤ s * (n / s) := Nat.mul_le_mul_left s hk
      obtain ⟨k', hk'⟩ : ∃ k', n / s = k' + 1 := ⟨n / s - 1, by omega⟩
      have hk'mul : k' * s = s * (n / s) - s := by
        rw [← hmul, hk']
        simp
      rw [hk']
      rw [offset_diffs_range' s n k' 0 (by omega)]
      have : n - (0 + k' * s) = s + n % s := by omega
      rw [this]
      simp
  · intro hns
    have : n / s = 0 := Nat.div_eq_of_lt hns
    rw [fixed_size_blocking, ← hn, this]
    rfl

/-- C10 amended witness: 25 documents with `block_size = 10` give 2 blocks of
sizes 10 and 15, offsets `[0, 10, 25]`. -/
theorem c10_fixed_size_blocking_amended_witness :
    num_blocks (fixed_size_blocking (List.range 25) 10) = 2 ∧
    (fixed_size_blocking (List.range 25) 10).head? = some 0 ∧
    offset_diffs (fixed_size_blocking (List.range 25) 10) = [10, 15] ∧
    fixed_size_blocking (List.range 25) 10 = [0, 10, 25] := by
  have h := c10_fixed_size_blocking_amended (List.range 25) 10 (by norm_num)
  have h2 := (h.2.1 (by simp))
  refine ⟨by simpa using h.1, h2.1, by simpa using h2.2, by rfl⟩

/-! ## Posting-list build (`PostingList::build`) -/

/-- The summarization dispatch inside `PostingList::build`. -/
def summarizeBlock (ds : SparseDataset) (s : SummarizationStrategy)
    (block : List Nat) : List (Nat × ℚ) :=
  match s with
  | .fixedSize n => fixed_size_summary ds block n
  | .energyPerserving f => energy_preserving_summary ds block f

/-- Embeds the `PostingList` struct.  `summaries` keeps the raw summary rows;
the `QuantizedSummary` compression lives outside `src/` and none of the
claims depends on it, only on the number of rows. -/
structure PostingListModel where
  packed_postings : List Nat
  block_offsets : List Nat
  summaries : List (List (Nat × ℚ))

/-- Embeds `PostingList::build`: project the pruned pairs to doc ids, block
them (possibly reordering), summarize each `block_offsets` window, and pack
each document's `(vector_offset, vector_len)` in reordered order. -/
def posting_list_build (ds : SparseDataset)
    (kmeans : List Nat → Nat → Nat → List (List Nat))
    (postings : List (ℚ × Nat)) (config : Configuration) :
    Except String PostingListModel :=
  match (match config.blocking with
    | .fixedSize blockSize =>
        .ok (fixed_size_blocking (postings.map Prod.snd) blockSize,
          postings.map Prod.snd)
    | .randomKmeans cf trunc ts mcs =>
        blocking_with_random_kmeans kmeans (postings.map Prod.snd) cf trunc
          ts mcs : Except String (List Nat × List Nat)) with
  | .error e => .error e
  | .ok (blockOffsets, reordered) =>
      .ok {
        packed_postings := reordered.map (fun d =>
          pack_offset_len (vector_offset ds d) (vector_len ds d)),
        block_offsets := blockOffsets,
        summaries := (blockOffsets.zip blockOffsets.tail).map (fun w =>
          summarizeBlock ds config.summarization
            ((reordered.drop w.1).take (w.2 - w.1))) }

/-- The `block_offsets` invariants of the spec (§8, invariant 1), for one
posting list: starts at 0, strictly increasing, ends at the packed length,
one more entry than the summary count. -/
def blockInvariants (pl : PostingListModel) : Prop :=
  pl.block_offsets.head? = some 0 ∧
  List.Chain' (· < ·) pl.block_offsets ∧
  pl.block_offsets.getLast? = some pl.packed_postings.length ∧
  pl.block_offsets.length = pl.summaries.length + 1

/-! ### Facts about the k-means offsets -/

/-- The running-total offsets are strictly increasing from any start. -/
theorem kmeansOffsets_chain (cs : List (List Nat)) :
    ∀ n, List.Chain' (· < ·) (n :: kmeansOffsets n cs) := by
  induction cs with
  | nil => intro n; simp [kmeansOffsets]
  | cons c rest ih =>
      intro n
      rw [kmeansOffsets]
      by_cases hc : c.isEmpty
      · rw [if_pos hc]; exact ih n
      · rw [if_neg hc]
        have hlen : 0 < c.length := by
          cases c with
          | nil => simp at hc
          | cons a t => simp
        exact List.chain'_cons.mpr ⟨by omega, ih (n + c.length)⟩

/-- The last running-total offset is the start plus the total cluster mass. -/
theorem kmeansOffsets_getLast (cs : List (List Nat)) :
    ∀ n, (n :: kmeansOffsets n cs).getLast? =
      some (n + (cs.map List.length).sum) := by
  induction cs with
  | nil => intro n; simp [kmeansOffsets]
  | cons c rest ih =>
      intro n
      rw [kmeansOffsets]
      by_cases hc : c.isEmpty
      · rw [if_pos hc]
        have hc0 : c.length = 0 := by
          cases c with
          | nil => rfl
          | cons a t => simp at hc
        rw [ih n]
        simp [hc0]
      · rw [if_neg hc]
        rw [List.getLast?_cons_cons, ih (n + c.length)]
        simp [Nat.add_assoc]

/-- A zip with the own tail has one entry fewer (the window count). -/
theorem zip_tail_length {α : Type} (l : List α) :
    (l.zip l.tail).length = l.length - 1 := by
  rw [List.length_zip, List.length_tail]
  omega

/-- The fixed-size offsets satisfy the spec's invariants provided the list is
empty or at least one block long. -/
theorem fixed_size_blocking_invariants (l : List Nat) (s : Nat) (hs : 1 ≤ s)
    (h : l.length = 0 ∨ s ≤ l.length) :
    (fixed_size_blocking l s).head? = some 0 ∧
    List.Chain' (· < ·) (fixed_size_blocking l s) ∧
    (fixed_size_blocking l s).getLast? = some l.length := by
  rcases h with h0 | hsl
  · rw [fixed_size_blocking, h0, Nat.zero_div]
    refine ⟨rfl, by simp, rfl⟩
  · set n := l.length with hn
    have hK : 1 ≤ n / s := (Nat.one_le_div_iff (by omega)).mpr hsl
    obtain ⟨K', hK'⟩ : ∃ K', n / s = K' + 1 := ⟨n / s - 1, by omega⟩
    have hKs : (K' + 1) * s ≤ n := by
      rw [← hK']
      exact Nat.div_mul_le_self n s
    have heq : fixed_size_blocking l s = List.range' 0 (K' + 1) s ++ [n] := by
      rw [fixed_size_blocking, range_map_mul, ← hn, hK']
    refine ⟨?_, ?_, ?_⟩
    · rw [heq, List.range'_succ]; rfl
    · rw [heq, List.chain'_iff_pairwise, List.pairwise_append]
      refine ⟨List.pairwise_lt_range' 0 (K' + 1) s (by omega), by simp, ?_⟩
      intro a ha b hb
      obtain ⟨i, hi, rfl⟩ := List.mem_range'.mp ha
      have hb' : b = n := by simpa using hb
      subst hb'
      have h1 : s * i ≤ s * K' := Nat.mul_le_mul_left s (by omega)
      have h2 : s * (K' + 1) = s * K' + s := by ring
      have h3 : s * (K' + 1) ≤ n := by rw [Nat.mul_comm]; exact hKs
      omega
    · rw [heq, List.getLast?_concat]

/-- What a successful RandomKmeans blocking can look like: either the empty
fast path or a covering clustering dispersed into running-total offsets. -/
theorem blocking_with_random_kmeans_ok
    (kmeans : List Nat → Nat → Nat → List (List Nat)) (postingList : List Nat)
    (cf : ℚ) (tr : Bool) (ts mcs : Nat) (offsets reordered : List Nat)
    (h : blocking_with_random_kmeans kmeans postingList cf tr ts mcs =
      .ok (offsets, reordered)) :
    (postingList = [] ∧ offsets = [] ∧ reordered = []) ∨
    (postingList ≠ [] ∧
      offsets = 0 :: kmeansOffsets 0 (kmeans_clusters kmeans cf mcs postingList) ∧
      reordered = kmeans_reordered kmeans cf mcs postingList ∧
      reordered.length = postingList.length) := by
  rw [blocking_with_random_kmeans] at h
  by_cases hne : postingList.isEmpty
  · left
    rw [if_pos hne] at h
    injection h with h
    have he : postingList = [] := List.isEmpty_iff.mp hne
    injection h with h1 h2
    exact ⟨he, h1.symm, by rw [← h2, he]⟩
  · rw [if_neg hne] at h
    cases tr with
    | true => simp at h
    | false =>
        rw [if_neg (by simp)] at h
        by_cases hlen : (kmeans_reordered kmeans cf mcs postingList).length =
            postingList.length
        · rw [if_pos hlen] at h
          injection h with h
          injection h with h1 h2
          refine Or.inr ⟨by simpa using hne, h1.symm, h2.symm, ?_⟩
          rw [← h2]
          exact hlen
        · rw [if_neg hlen] at h
          cases h

/-- C5 counterexample: a posting list built from an empty pruned list under
RandomKmeans blocking gets an *empty* `block_offsets` — it does not start at
0 and has as many entries as summaries (0), not one more; and FixedSize
blocking on 5 postings with block size 10 yields `[5]`, which does not start
at 0 either. -/
theorem c5_block_offsets_counterexample :
    posting_list_build ⟨2, []⟩ (fun l _ _ => [l]) []
        ⟨.fixedSize 0, .randomKmeans (1/10) false 32 2, .energyPerserving (2/5)⟩ =
      .ok ⟨[], [], []⟩ ∧
    (([] : List Nat).head? ≠ some 0) ∧
    (([] : List Nat).length ≠ ([] : List (List (Nat × ℚ))).length + 1) ∧
    (fixed_size_blocking [7, 8, 9, 10, 11] 10).head? ≠ some 0 := by
  refine ⟨rfl, by simp, by simp, by decide⟩

/-- C5 amended: for a posting list built from a *nonempty* pruned list the
spec's `block_offsets` invariants hold — starts at 0, strictly increasing,
ends at `len(packed_postings)`, one more entry than the summary count —
under RandomKmeans blocking whenever the clustering covers the list
(`do_random_kmeans_on_docids` is modelled from the spec; the builder's own
`assert_eq!` enforces exactly this length condition), and under FixedSize
blocking whenever the list is empty or at least `block_size` long.  A
posting list built from an empty pruned list instead has empty
`block_offsets`, no summaries and no packed postings. -/
theorem c5_block_offsets_invariants_amended :
    (∀ (ds : SparseDataset) (kmeans : List Nat → Nat → Nat → List (List Nat))
        (postings : List (ℚ × Nat)) (cf : ℚ) (ts mcs : Nat)
        (pruning : PruningStrategy) (sum : SummarizationStrategy)
        (pl : PostingListModel),
      posting_list_build ds kmeans postings
        ⟨pruning, .randomKmeans cf false ts mcs, sum⟩ = .ok pl →
      ((postings ≠ [] → blockInvariants pl) ∧
       (postings = [] → pl.block_offsets = [] ∧ pl.summaries = [] ∧
          pl.packed_postings = []))) ∧
    (∀ (ds : SparseDataset) (kmeans : List Nat → Nat → Nat → List (List Nat))
        (postings : List (ℚ × Nat)) (s : Nat)
        (pruning : PruningStrategy) (sum : SummarizationStrategy)
        (pl : PostingListModel),
      1 ≤ s → (postings.length = 0 ∨ s ≤ postings.length) →
      posting_list_build ds kmeans postings
        ⟨pruning, .fixedSize s, sum⟩ = .ok pl →
      blockInvariants pl) := by
  constructor
  · intro ds kmeans postings cf ts mcs pruning sum pl hbuild
    rw [posting_list_build] at hbuild
    simp only at hbuild
    cases hval : blocking_with_random_kmeans kmeans (postings.map Prod.snd)
        cf false ts mcs with
    | error e => rw [hval] at hbuild; simp at hbuild
    | ok pair =>
        obtain ⟨offsets, reordered⟩ := pair
        rw [hval] at hbuild
        simp only at hbuild
        injection hbuild with hbuild
        rcases blocking_with_random_kmeans_ok _ _ _ _ _ _ _ _ hval with
          ⟨he, ho, hr⟩ | ⟨hne', ho, hr, _⟩
        · have hpe : postings = [] := by
            cases postings with
            | nil => rfl
            | cons p t => simp at he
          subst hpe
          subst ho
          subst hr
          subst hbuild
          exact ⟨fun hc => absurd rfl hc, fun _ => ⟨rfl, rfl, rfl⟩⟩
        · have hpne : postings ≠ [] := by
            intro hc
            subst hc
            simp at hne'
          subst ho
          subst hr
          subst hbuild
          refine ⟨fun _ => ⟨rfl, kmeansOffsets_chain _ 0, ?_, ?_⟩,
            fun hc => absurd hc hpne⟩
          · show (0 :: kmeansOffsets 0 _).getLast? = _
            rw [kmeansOffsets_getLast _ 0]
            show _ = some (List.length (List.map _
              (kmeans_reordered kmeans cf mcs (postings.map Prod.snd))))
            rw [List.length_map, kmeans_reordered, List.length_flatten]
            norm_num
          · show (0 :: kmeansOffsets 0 _).length =
              (((0 :: kmeansOffsets 0 _).zip
                (0 :: kmeansOffsets 0 _).tail).map _).length + 1
            rw [List.length_map, zip_tail_length]
            simp
  · intro ds kmeans postings s pruning sum pl hs hlen hbuild
    rw [posting_list_build] at hbuild
    simp only at hbuild
    injection hbuild with hbuild
    subst hbuild
    have hmaplen : (postings.map Prod.snd).length = postings.length :=
      List.length_map _ _
    obtain ⟨h1, h2, h3⟩ := fixed_size_blocking_invariants (postings.map Prod.snd)
      s hs (by omega)
    refine ⟨h1, h2, ?_, ?_⟩
    · show (fixed_size_blocking (postings.map Prod.snd) s).getLast? = _
      rw [h3]
      simp [List.length_map]
    · show (fixed_size_blocking (postings.map Prod.snd) s).length =
        (((fixed_size_blocking (postings.map Prod.snd) s).zip
          (fixed_size_blocking (postings.map Prod.snd) s).tail).map _).length + 1
      rw [List.length_map, zip_tail_length]
      have h4 : (fixed_size_blocking (postings.map Prod.snd) s).length =
          (postings.map Prod.snd).length / s + 1 := by
        rw [fixed_size_blocking, List.length_append, List.length_map,
          List.length_range]
        simp
      have h5 : 1 ≤ (fixed_size_blocking (postings.map Prod.snd) s).length := by
        rw [h4]
        exact Nat.succ_le_succ (Nat.zero_le _)
      omega

/-- C9: under RandomKmeans blocking with a clustering that partitions the
posting list (the spec's contract for `do_random_kmeans_on_docids`),
`PostingList::build` emits one packed 64-bit word per input posting: the
reordered doc-id list is a permutation of the pruned input and each word
packs that document's `(vector_offset, vector_len)`, in reordered order
(unpacking recovers exactly those pairs when they are in range). -/
theorem c9_packed_postings_permutation
    (ds : SparseDataset) (kmeans : List Nat → Nat → Nat → List (List Nat))
    (postings : List (ℚ × Nat)) (cf : ℚ) (ts mcs : Nat)
    (pruning : PruningStrategy) (sum : SummarizationStrategy)
    (pl : PostingListModel)
    (hpart : (kmeans_reordered kmeans cf mcs (postings.map Prod.snd)).Perm
      (postings.map Prod.snd))
    (hbuild : posting_list_build ds kmeans postings
      ⟨pruning, .randomKmeans cf false ts mcs, sum⟩ = .ok pl) :
    pl.packed_postings.length = postings.length ∧
    (postings ≠ [] →
      pl.packed_postings = (kmeans_reordered kmeans cf mcs
        (postings.map Prod.snd)).map (fun d =>
          pack_offset_len (vector_offset ds d) (vector_len ds d)) ∧
      ((∀ d ∈ postings.map Prod.snd, vector_offset ds d < 2 ^ 48 ∧
          vector_len ds d < 2 ^ 16) →
        pl.packed_postings.map unpack_offset_len =
          (kmeans_reordered kmeans cf mcs (postings.map Prod.snd)).map
            (fun d => (vector_offset ds d, vector_len ds d)))) := by
  rw [posting_list_build] at hbuild
  simp only at hbuild
  cases hval : blocking_with_random_kmeans kmeans (postings.map Prod.snd)
      cf false ts mcs with
  | error e => rw [hval] at hbuild; simp at hbuild
  | ok pair =>
      obtain ⟨offsets, reordered⟩ := pair
      rw [hval] at hbuild
      simp only at hbuild
      injection hbuild with hbuild
      rcases blocking_with_random_kmeans_ok _ _ _ _ _ _ _ _ hval with
        ⟨he, _, hr⟩ | ⟨hne', _, hr, hcov⟩
      · have hpe : postings = [] := by
          cases postings with
          | nil => rfl
          | cons p t => simp at he
        subst hpe
        subst hr
        subst hbuild
        exact ⟨rfl, fun hc => absurd rfl hc⟩
      · subst hr
        subst hbuild
        refine ⟨?_, fun _ => ⟨rfl, fun hbounds => ?_⟩⟩
        · show (List.map _ (kmeans_reordered kmeans cf mcs
            (postings.map Prod.snd))).length = _
          rw [List.length_map, hcov, List.length_map]
        · show (List.map _ (kmeans_reordered kmeans cf mcs
            (postings.map Prod.snd))).map unpack_offset_len = _
          rw [List.map_map]
          apply List.map_congr_left
          intro d hd
          have hdm : d ∈ postings.map Prod.snd := hpart.mem_iff.mp hd
          obtain ⟨hb1, hb2⟩ := hbounds d hdm
          simp only [Function.comp_apply]
          exact unpack_pack_eq _ _ hb1 hb2

/-- The concrete two-document dataset used by the posting-list build
witnesses. -/
def twoDocDataset : SparseDataset := ⟨2, [[(0, 1)], [(1, 1)]]⟩

/-- The concrete configuration used by the posting-list build witnesses:
RandomKmeans blocking, fixed-size summaries. -/
def kmeansBuildConfig : Configuration :=
  ⟨.fixedSize 10, .randomKmeans (1/2) false 32 2, .fixedSize 5⟩

/-- C9 witness: a concrete two-posting build through a one-cluster
clustering packs both documents in order. -/
theorem c9_packed_postings_permutation_witness :
    (kmeans_reordered (fun l _ _ => [l]) (1/2) 2
      ([((1 : ℚ), 0), (1, 1)].map Prod.snd)).Perm
      ([((1 : ℚ), 0), (1, 1)].map Prod.snd) ∧
    posting_list_build twoDocDataset (fun l _ _ => [l]) [((1 : ℚ), 0), (1, 1)]
      kmeansBuildConfig =
      .ok ⟨[pack_offset_len 0 1, pack_offset_len 1 1], [0, 2],
        [[(0, 1), (1, 1)]]⟩ ∧
    ([pack_offset_len 0 1, pack_offset_len 1 1] : List Nat).length = 2 ∧
    ([pack_offset_len 0 1, pack_offset_len 1 1].map unpack_offset_len) =
      [(0, 1), (1, 1)] := by
  have hperm : (kmeans_reordered (fun l _ _ => [l]) (1/2) 2
      ([((1 : ℚ), 0), (1, 1)].map Prod.snd)).Perm
      ([((1 : ℚ), 0), (1, 1)].map Prod.snd) := by
    simp [kmeans_reordered, kmeans_clusters]
  have hbuild : posting_list_build twoDocDataset (fun l _ _ => [l])
      [((1 : ℚ), 0), (1, 1)] kmeansBuildConfig =
      .ok ⟨[pack_offset_len 0 1, pack_offset_len 1 1], [0, 2],
        [[(0, 1), (1, 1)]]⟩ := by
    norm_num [posting_list_build, blocking_with_random_kmeans, kmeans_reordered,
      kmeans_clusters, kmeansBuildConfig, kmeansOffsets, summarizeBlock,
      fixed_size_summary, maxUnion, iter_vector, upsertMax, lookupD,
      twoDocDataset, vector_offset, vector_len, List.insertionSort,
      List.orderedInsert, descBy, ascBy, List.take_succ_cons, List.sum_cons,
      List.getD_cons_succ, List.getD_cons_zero]
    rfl
  have h := c9_packed_postings_permutation twoDocDataset (fun l _ _ => [l])
    [((1 : ℚ), 0), (1, 1)] (1/2) 32 2 (.fixedSize 10) (.fixedSize 5)
    ⟨[pack_offset_len 0 1, pack_offset_len 1 1], [0, 2], [[(0, 1), (1, 1)]]⟩
    hperm hbuild
  refine ⟨hperm, hbuild, h.1, ?_⟩
  have h2 := (h.2 (by simp)).2 ?_
  · have he : kmeans_reordered (fun l _ _ => [l]) (1/2) 2
        ([((1 : ℚ), 0), (1, 1)].map Prod.snd) = [0, 1] := by
      simp [kmeans_reordered, kmeans_clusters]
    rw [he] at h2
    simpa [twoDocDataset, vector_offset, vector_len, iter_vector] using h2
  · intro d hd
    simp only [List.map_cons, List.map_nil, List.mem_cons] at hd
    rcases hd with rfl | hd
    · refine ⟨by norm_num [twoDocDataset, vector_offset], ?_⟩
      norm_num [twoDocDataset, vector_len, iter_vector]
    · rcases hd with rfl | hd
      · refine ⟨by norm_num [twoDocDataset, vector_offset], ?_⟩
        norm_num [twoDocDataset, vector_len, iter_vector]
      · cases hd

/-! ## Index build (`InvertedIndex::build`) -/

/-- The distribution phase of `InvertedIndex::build`: for every document and
every `(component, score)` pair, push `(score, doc_id)` onto
`inverted_pairs[component]` (one bucket per dimension). -/
def distribute (ds : SparseDataset) : List (List (ℚ × Nat)) :=
  ds.docs.enum.foldl (fun bs e =>
    e.2.foldl (fun bs p => bs.set p.1 (bs.getD p.1 [] ++ [(p.2, e.1)])) bs)
    (List.replicate ds.dim [])

/-- Embeds `InvertedIndex::build` end to end: distribute, prune (an `Option`
failure becomes the pruning panic), then build every posting list.  The
forward index is the dataset itself; the posting-list array is returned. -/
def inverted_index_build (ds : SparseDataset) (config : Configuration)
    (kmeans : List Nat → Nat → Nat → List (List Nat)) :
    Except String (List PostingListModel) :=
  match apply_pruning config.pruning (distribute ds) with
  | none => .error "empty pool in global threshold pruning"
  | some pruned => pruned.mapM (fun pl => posting_list_build ds kmeans pl config)

/-- Pushing a document's pairs never changes the bucket count. -/
theorem foldl_push_length (doc : List (Nat × ℚ)) (docId : Nat) :
    ∀ bs : List (List (ℚ × Nat)),
      (doc.foldl (fun bs p => bs.set p.1 (bs.getD p.1 [] ++ [(p.2, docId)]))
        bs).length = bs.length := by
  induction doc with
  | nil => intro bs; rfl
  | cons p rest ih =>
      intro bs
      rw [List.foldl_cons, ih, List.length_set]

/-- Distributing any document sequence never changes the bucket count. -/
theorem foldl_distribute_length (es : List (Nat × List (Nat × ℚ))) :
    ∀ bs : List (List (ℚ × Nat)),
      (es.foldl (fun bs e =>
        e.2.foldl (fun bs p => bs.set p.1 (bs.getD p.1 [] ++ [(p.2, e.1)])) bs)
        bs).length = bs.length := by
  induction es with
  | nil => intro bs; rfl
  | cons e rest ih =>
      intro bs
      rw [List.foldl_cons, ih, foldl_push_length]

/-- There is one distribution bucket per dimension. -/
theorem distribute_length (ds : SparseDataset) :
    (distribute ds).length = ds.dim := by
  rw [distribute, foldl_distribute_length, List.length_replicate]

/-- Building every posting list from emptied buckets succeeds with empty
posting lists (RandomKmeans blocking short-circuits on empty input). -/
theorem mapM_build_empty_lists (ds : SparseDataset)
    (kmeans : List Nat → Nat → Nat → List (List Nat)) (cf : ℚ) (ts mcs : Nat)
    (sum : SummarizationStrategy) (pruning : PruningStrategy) :
    ∀ (l : List (List (ℚ × Nat))),
      (l.map (fun _ => ([] : List (ℚ × Nat)))).mapM
        (fun pl => posting_list_build ds kmeans pl
          ⟨pruning, .randomKmeans cf false ts mcs, sum⟩) =
      .ok (List.replicate l.length ⟨[], [], []⟩) := by
  intro l
  induction l with
  | nil => rfl
  | cons x t ih =>
      have hpl : posting_list_build ds kmeans []
          ⟨pruning, .randomKmeans cf false ts mcs, sum⟩ = .ok ⟨[], [], []⟩ := rfl
      rw [List.map_cons, List.mapM_cons, hpl, ih]
      rfl

/-- Reducing `InvertedIndex::build` once the pruning result is known. -/
theorem inverted_index_build_of_pruned (ds : SparseDataset)
    (config : Configuration) (kmeans : List Nat → Nat → Nat → List (List Nat))
    (pruned : List (List (ℚ × Nat)))
    (h : apply_pruning config.pruning (distribute ds) = some pruned) :
    inverted_index_build ds config kmeans =
      pruned.mapM (fun pl => posting_list_build ds kmeans pl config) := by
  rw [inverted_index_build, h]

/-- C8 counterexample: two concrete builds with invalid configurations —
`n_postings = 0` under GlobalThreshold, and `centroid_fraction = 0` with
summarization `fraction = 0` — complete and return an index, where the claim
demands an immediate failure at build entry. -/
theorem c8_build_validation_counterexample :
    inverted_index_build ⟨2, [[(0, 1), (1, 1)]]⟩
        ⟨.globalThreshold 0 (3/2), .randomKmeans (1/10) false 32 2,
          .energyPerserving (2/5)⟩ (fun l _ _ => [l]) =
      .ok [⟨[], [], []⟩, ⟨[], [], []⟩] ∧
    inverted_index_build ⟨2, [[(0, 1), (1, 1)]]⟩
        ⟨.fixedSize 3, .randomKmeans 0 false 32 2, .energyPerserving 0⟩
        (fun l _ _ => [l]) =
      .ok [⟨[pack_offset_len 0 2], [0, 1], [[(0, 1)]]⟩,
           ⟨[pack_offset_len 0 2], [0, 1], [[(0, 1)]]⟩] := by
  constructor
  · have h1 : apply_pruning (.globalThreshold 0 (3/2))
        (distribute ⟨2, [[(0, 1), (1, 1)]]⟩) = some [[], []] := by
      norm_num [apply_pruning, distribute, global_threshold_pruning, poolOf,
        disperse, fixed_pruning, prune_cap, List.insertionSort,
        List.orderedInsert, descBy, List.enum, List.enumFrom,
        List.set_cons_zero, List.set_cons_succ, List.getD_cons_zero,
        List.getD_cons_succ, List.replicate_succ]
    rw [inverted_index_build_of_pruned _ _ _ _ h1]
    rfl
  · have h2 : apply_pruning (.fixedSize 3)
        (distribute ⟨2, [[(0, 1), (1, 1)]]⟩) =
        some [[((1 : ℚ), 0)], [((1 : ℚ), 0)]] := by
      norm_num [apply_pruning, distribute, fixed_pruning, List.insertionSort,
        List.orderedInsert, descBy, List.enum, List.enumFrom,
        List.set_cons_zero, List.set_cons_succ, List.getD_cons_zero,
        List.getD_cons_succ, List.replicate_succ]
      rfl
    have h3 : posting_list_build ⟨2, [[(0, 1), (1, 1)]]⟩ (fun l _ _ => [l])
        [((1 : ℚ), 0)]
        ⟨.fixedSize 3, .randomKmeans 0 false 32 2, .energyPerserving 0⟩ =
        .ok ⟨[pack_offset_len 0 2], [0, 1], [[(0, 1)]]⟩ := by
      norm_num [posting_list_build, blocking_with_random_kmeans,
        kmeans_reordered, kmeans_clusters, kmeansOffsets, summarizeBlock,
        energy_preserving_summary, energy_preserving_take, maxUnion,
        iter_vector, upsertMax, lookupD, vector_offset, vector_len,
        List.insertionSort, List.orderedInsert, descBy, ascBy,
        List.getD_cons_zero, List.getD_cons_succ]
    rw [inverted_index_build_of_pruned _ _ _ _ h2, List.mapM_cons,
      List.mapM_cons, List.mapM_nil, h3]
    rfl

/-- C8 amended: `InvertedIndex::build` performs no configuration validation
at entry.  In particular, for every dataset, every centroid fraction
(including `centroid_fraction ≤ 0`), every summarization strategy (including
`fraction ≤ 0` or `> 1`) and `n_postings = 0`, the build completes without
error and returns one empty posting list per dimension. -/
theorem c8_build_does_not_validate_config (ds : SparseDataset)
    (kmeans : List Nat → Nat → Nat → List (List Nat)) (cf : ℚ)
    (ts mcs : Nat) (sum : SummarizationStrategy) :
    inverted_index_build ds ⟨.fixedSize 0, .randomKmeans cf false ts mcs, sum⟩
      kmeans = .ok (List.replicate ds.dim ⟨[], [], []⟩) := by
  have hstep : inverted_index_build ds
      ⟨.fixedSize 0, .randomKmeans cf false ts mcs, sum⟩ kmeans =
      (fixed_pruning (distribute ds) 0).mapM (fun pl =>
        posting_list_build ds kmeans pl
          ⟨.fixedSize 0, .randomKmeans cf false ts mcs, sum⟩) := rfl
  have hfp : fixed_pruning (distribute ds) 0 =
      (distribute ds).map (fun _ => []) := by
    rw [fixed_pruning]
    exact List.map_congr_left (fun l _ => List.take_zero _)
  rw [hstep, hfp, mapM_build_empty_lists, distribute_length]

/-! ## Query-time search
(`InvertedIndex::search`, `PostingList::search`, `evaluate_posting_block`)

The distance kernels (`distances.rs`) and the quantized-summary matmul
(`quantized_summary.rs`) live outside `src/`; the embedding abstracts them
as a per-offset score function and a per-block summary dot product, both
quantified over in the claims. -/

/-- Sort relation: ascending in the rational projection `f` (used to drain
the heap: keys are negated similarities). -/
def ascQBy {α : Type} (f : α → ℚ) : α → α → Prop := fun a b => f a ≤ f b

instance {α : Type} (f : α → ℚ) : DecidableRel (ascQBy f) := fun a b =>
  inferInstanceAs (Decidable (f a ≤ f b))

instance {α : Type} (f : α → ℚ) : IsTotal α (ascQBy f) :=
  ⟨fun a b => le_total (f a) (f b)⟩

instance {α : Type} (f : α → ℚ) : IsTrans α (ascQBy f) :=
  ⟨fun _ _ _ h1 h2 => le_trans h1 h2⟩

/-- Modelled from the spec: `HeapFaiss::top()` — the largest key (the worst
of the current best candidates; keys are negated similarities). -/
def heapTop : List (ℚ × Nat) → ℚ
  | [] => 0
  | p :: rest => max p.1 (heapTop rest)

/-- Modelled from the spec: removing the max-key entry when a full heap
replaces its worst candidate. -/
def eraseMax (heap : List (ℚ × Nat)) : List (ℚ × Nat) :=
  heap.eraseP (fun p => p.1 == heapTop heap)

/-- Modelled from the spec: `HeapFaiss::push_with_id` on a heap of capacity
`k` — insert unconditionally until full, then replace the max if the new key
is smaller (`topk_selectors` lives outside `src/`). -/
def heap_push (k : Nat) (heap : List (ℚ × Nat)) (key : ℚ) (offset : Nat) :
    List (ℚ × Nat) :=
  if heap.length < k then (key, offset) :: heap
  else if key < heapTop heap then (key, offset) :: eraseMax heap
  else heap

/-- Modelled from the spec: `HeapFaiss::topk()` drains the heap ordered by
key (ascending negated similarity = descending similarity). -/
def heap_topk (heap : List (ℚ × Nat)) : List (ℚ × Nat) :=
  heap.insertionSort (ascQBy Prod.fst)

/-- The per-query state of `InvertedIndex::search`: capacity, heap, visited
set, plus two ghost traces — the offsets pushed onto the heap and the
blocks actually evaluated — that only record events. -/
structure SearchState where
  k : Nat
  heap : List (ℚ × Nat)
  visited : Finset Nat
  pushes : List Nat
  evaluated : List (List Nat)

/-- The per-posting step of `evaluate_posting_block`: skip an offset already
in `visited`, otherwise compute the distance (abstract kernel `score`),
insert into `visited` and push the negated distance with the offset. -/
def evalStep (score : Nat → ℚ) (st : SearchState) (offset : Nat) : SearchState :=
  if offset ∈ st.visited then st
  else { st with
    heap := heap_push st.k st.heap (-1 * score offset) offset,
    visited := insert offset st.visited,
    pushes := st.pushes ++ [offset] }

/-- Embeds `PostingList::evaluate_posting_block`: every packed posting of the
block is visited in order (the loop staggers entries `i`/`i+1` only to
prefetch; each entry is tested against `visited` exactly once) and the block
is recorded in the `evaluated` trace. -/
def evaluate_posting_block (score : Nat → ℚ) (st : SearchState)
    (block : List Nat) : SearchState :=
  let st' := block.foldl (evalStep score) st
  { st' with evaluated := st'.evaluated ++ [block] }

/-- One gated step of `PostingList::search`'s block loop, on the pair
(state, blocks_to_evaluate buffer): skip the block when the heap is full and
its summary dot is below `-heap_factor · heap.top()`; otherwise flush the (at
most one) buffered block and buffer this one. -/
def gateStep (score : Nat → ℚ) (heapFactor : ℚ)
    (acc : SearchState × List (List Nat)) (b : ℚ × List Nat) :
    SearchState × List (List Nat) :=
  if acc.1.heap.length = acc.1.k ∧ b.1 < -heapFactor * heapTop acc.1.heap
  then acc
  else
    let acc' := if acc.2.length = 1
      then (acc.2.foldl (evaluate_posting_block score) acc.1,
        ([] : List (List Nat)))
      else acc
    (acc'.1, acc'.2 ++ [b.2])

/-- Embeds `PostingList::search`: walk the blocks with their summary dots
through `gateStep`, then evaluate the leftover buffer. -/
def posting_list_search (score : Nat → ℚ) (heapFactor : ℚ)
    (st : SearchState) (blocks : List (ℚ × List Nat)) : SearchState :=
  let fin := blocks.foldl (gateStep score heapFactor)
    (st, ([] : List (List Nat)))
  fin.2.foldl (evaluate_posting_block score) fin.1

/-- The fresh per-query state. -/
def initState (k : Nat) : SearchState := ⟨k, [], ∅, [], []⟩

/-- The loop of `InvertedIndex::search` over the traversed posting lists
(whichever lists the query-cut selection picks). -/
def search_traverse (k : Nat) (heapFactor : ℚ) (score : Nat → ℚ)
    (lists : List (List (ℚ × List Nat))) : SearchState :=
  lists.foldl (posting_list_search score heapFactor) (initState k)

/-- The returned candidates: drain the heap, take absolute values of the
keys, keep the offsets (`offset_to_id` back-translation happens in the
forward index, outside `src/`). -/
def search_result (st : SearchState) : List (ℚ × Nat) :=
  (heap_topk st.heap).map (fun e => (|e.1|, e.2))

/-- The query-densifying loop of `InvertedIndex::search`:
`query[i] = v` for each query pair — an out-of-range component id is an
out-of-bounds write, i.e. a panic (`none`). -/
def densify (dim : Nat) (queryComponents : List Nat) (queryValues : List ℚ) :
    Option (List ℚ) :=
  (queryComponents.zip queryValues).foldl
    (fun acc p => acc.bind (fun q =>
      if p.1 < q.length then some (q.set p.1 p.2) else none))
    (some (List.replicate dim 0))

/-- Embeds `InvertedIndex::search`: densify the query (panic on an
out-of-range component), sort the query pairs by value descending, take the
top `query_cut`, and scan each selected component's posting list
(`posting_lists[c]` — an out-of-range index is a panic); finally drain the
heap. -/
def search (k queryCut : Nat) (heapFactor : ℚ) (dim : Nat)
    (queryComponents : List Nat) (queryValues : List ℚ)
    (postingLists : List (List (ℚ × List Nat))) (score : Nat → ℚ) :
    Option (List (ℚ × Nat)) :=
  ((densify dim queryComponents queryValues).bind (fun _query =>
    (((queryComponents.zip queryValues).insertionSort
        (descBy Prod.snd)).take queryCut).foldlM
      (fun st p => (postingLists.get? p.1).map
        (fun pl => posting_list_search score heapFactor st pl))
      (initState k))).map search_result

/-! ### The deduplication invariant (C2) -/

/-- The core state invariant: pushed offsets are distinct, `visited` is
exactly the set of pushed offsets, and the heap holds a subset of the pushed
offsets without repetition. -/
def CoreInv (st : SearchState) : Prop :=
  st.pushes.Nodup ∧
  st.visited = st.pushes.toFinset ∧
  (∀ o ∈ st.heap.map Prod.snd, o ∈ st.pushes) ∧
  (st.heap.map Prod.snd).Nodup

/-- A heap push introduces no offset besides the pushed one. -/
theorem heap_push_offsets (k : Nat) (heap : List (ℚ × Nat)) (key : ℚ)
    (o : Nat) :
    ∀ x ∈ (heap_push k heap key o).map Prod.snd,
      x = o ∨ x ∈ heap.map Prod.snd := by
  intro x hx
  rw [heap_push] at hx
  by_cases h1 : heap.length < k
  · rw [if_pos h1] at hx
    rcases List.mem_map.mp hx with ⟨e, he, rfl⟩
    rcases List.mem_cons.mp he with rfl | he
    · exact Or.inl rfl
    · exact Or.inr (List.mem_map_of_mem _ he)
  · rw [if_neg h1] at hx
    by_cases h2 : key < heapTop heap
    · rw [if_pos h2] at hx
      rcases List.mem_map.mp hx with ⟨e, he, rfl⟩
      rcases List.mem_cons.mp he with rfl | he
      · exact Or.inl rfl
      · exact Or.inr (List.mem_map_of_mem _ ((List.eraseP_sublist heap).mem he))
    · rw [if_neg h2] at hx
      exact Or.inr hx

/-- A heap push of a fresh offset keeps the heap's offsets distinct. -/
theorem heap_push_offsets_nodup (k : Nat) (heap : List (ℚ × Nat)) (key : ℚ)
    (o : Nat) (hno : o ∉ heap.map Prod.snd)
    (hnd : (heap.map Prod.snd).Nodup) :
    ((heap_push k heap key o).map Prod.snd).Nodup := by
  rw [heap_push]
  by_cases h1 : heap.length < k
  · rw [if_pos h1, List.map_cons]
    exact List.nodup_cons.mpr ⟨hno, hnd⟩
  · rw [if_neg h1]
    by_cases h2 : key < heapTop heap
    · rw [if_pos h2, List.map_cons]
      refine List.nodup_cons.mpr ⟨?_, ?_⟩
      · intro hc
        exact hno (((List.eraseP_sublist heap).map Prod.snd).mem hc)
      · exact hnd.sublist ((List.eraseP_sublist heap).map Prod.snd)
    · rw [if_neg h2]
      exact hnd

/-- One evaluation step preserves the core invariant; it can only push the
offset it visits, never shrinks `visited`, and leaves the traces' shape
predictable. -/
theorem evalStep_core (score : Nat → ℚ) (st : SearchState) (o : Nat)
    (h : CoreInv st) :
    CoreInv (evalStep score st o) ∧
    (evalStep score st o).evaluated = st.evaluated ∧
    (evalStep score st o).k = st.k ∧
    (∀ x ∈ (evalStep score st o).pushes, x ∈ st.pushes ∨ x = o) ∧
    st.visited ⊆ (evalStep score st o).visited ∧
    o ∈ (evalStep score st o).visited := by
  obtain ⟨h1, h2, h3, h4⟩ := h
  rw [evalStep]
  by_cases hv : o ∈ st.visited
  · rw [if_pos hv]
    exact ⟨⟨h1, h2, h3, h4⟩, rfl, rfl, fun x hx => Or.inl hx,
      fun x hx => hx, hv⟩
  · rw [if_neg hv]
    have hop : o ∉ st.pushes := by
      intro hc
      exact hv (h2 ▸ List.mem_toFinset.mpr hc)
    have hoh : o ∉ st.heap.map Prod.snd := fun hc => hop (h3 o hc)
    refine ⟨⟨?_, ?_, ?_, ?_⟩, rfl, rfl, ?_, ?_, ?_⟩
    · simp [List.nodup_append, h1, hop]
    · show insert o st.visited = (st.pushes ++ [o]).toFinset
      rw [h2, List.toFinset_append]
      ext x
      simp [Or.comm]
    · intro x hx
      rcases heap_push_offsets st.k st.heap (-1 * score o) o x hx with rfl | hx
      · simp
      · exact List.mem_append_left _ (h3 x hx)
    · exact heap_push_offsets_nodup st.k st.heap (-1 * score o) o hoh h4
    · intro x hx
      rcases List.mem_append.mp hx with hx | hx
      · exact Or.inl hx
      · exact Or.inr (by simpa using hx)
    · intro x hx
      exact Finset.mem_insert_of_mem hx
    · exact Finset.mem_insert_self o st.visited

/-- Folding the evaluation step over a block preserves the core invariant,
pushes only offsets of the block, leaves the `evaluated` trace and the
capacity unchanged, grows `visited`, and ends with every block offset
visited. -/
theorem foldl_evalStep (score : Nat → ℚ) (block : List Nat) :
    ∀ st : SearchState, CoreInv st →
      CoreInv (block.foldl (evalStep score) st) ∧
      (block.foldl (evalStep score) st).evaluated = st.evaluated ∧
      (block.foldl (evalStep score) st).k = st.k ∧
      (∀ x ∈ (block.foldl (evalStep score) st).pushes,
        x ∈ st.pushes ∨ x ∈ block) ∧
      st.visited ⊆ (block.foldl (evalStep score) st).visited ∧
      (∀ o ∈ block, o ∈ (block.foldl (evalStep score) st).visited) := by
  induction block with
  | nil =>
      intro st h
      exact ⟨h, rfl, rfl, fun x hx => Or.inl hx, fun x hx => hx,
        fun o ho => absurd ho (List.not_mem_nil o)⟩
  | cons b rest ih =>
      intro st h
      obtain ⟨hc, hev, hk, hpu, hvis, hb⟩ := evalStep_core score st b h
      obtain ⟨hc', hev', hk', hpu', hvis', hrest⟩ := ih (evalStep score st b) hc
      rw [List.foldl_cons]
      refine ⟨hc', hev'.trans hev, hk'.trans hk, ?_, ?_, ?_⟩
      · intro x hx
        rcases hpu' x hx with hx | hx
        · rcases hpu x hx with hx | rfl
          · exact Or.inl hx
          · exact Or.inr (List.mem_cons_self _ _)
        · exact Or.inr (List.mem_cons_of_mem _ hx)
      · exact fun x hx => hvis' (hvis hx)
      · intro o ho
        rcases List.mem_cons.mp ho with rfl | ho
        · exact hvis' hb
        · exact hrest o ho

/-- The full search invariant: the core invariant, every pushed offset
appears in some evaluated block, and every offset of an evaluated block is
visited. -/
def FullInv (st : SearchState) : Prop :=
  CoreInv st ∧
  (∀ o ∈ st.pushes, ∃ b ∈ st.evaluated, o ∈ b) ∧
  (∀ b ∈ st.evaluated, ∀ o ∈ b, o ∈ st.visited)

/-- Evaluating one posting block preserves the full invariant. -/
theorem evaluate_posting_block_full (score : Nat → ℚ) (st : SearchState)
    (block : List Nat) (h : FullInv st) :
    FullInv (evaluate_posting_block score st block) := by
  obtain ⟨hcore, h5, h6⟩ := h
  obtain ⟨hc', hev, _, hpu, hvis, hblk⟩ := foldl_evalStep score block st hcore
  rw [evaluate_posting_block]
  refine ⟨hc', ?_, ?_⟩
  · intro o ho
    rcases hpu o ho with ho' | ho'
    · obtain ⟨b, hb, hob⟩ := h5 o ho'
      exact ⟨b, List.mem_append_left _ (hev ▸ hb), hob⟩
    · exact ⟨block, List.mem_append_right _ (List.mem_singleton_self _), ho'⟩
  · intro b hb o ho
    rcases List.mem_append.mp hb with hb | hb
    · exact hvis (h6 b (hev ▸ hb) o ho)
    · rw [List.mem_singleton.mp hb] at ho
      exact hblk o ho

/-- Evaluating any buffered block list preserves the full invariant. -/
theorem foldl_eval_blocks_full (score : Nat → ℚ) (bs : List (List Nat)) :
    ∀ st : SearchState, FullInv st →
      FullInv (bs.foldl (evaluate_posting_block score) st) := by
  induction bs with
  | nil => exact fun st h => h
  | cons b rest ih =>
      intro st h
      exact ih _ (evaluate_posting_block_full score st b h)

/-- The gated block loop preserves the full invariant (on the state half of
the accumulator). -/
theorem foldl_gateStep_full (score : Nat → ℚ) (hf : ℚ)
    (blocks : List (ℚ × List Nat)) :
    ∀ (st : SearchState) (buf : List (List Nat)), FullInv st →
      FullInv (blocks.foldl (gateStep score hf) (st, buf)).1 := by
  induction blocks with
  | nil => exact fun st _ h => h
  | cons b rest ih =>
      intro st buf h
      rw [List.foldl_cons, gateStep]
      by_cases hg : st.heap.length = st.k ∧ b.1 < -hf * heapTop st.heap
      · rw [if_pos hg]
        exact ih st buf h
      · rw [if_neg hg]
        by_cases hb : buf.length = 1
        · rw [if_pos hb]
          exact ih _ _ (foldl_eval_blocks_full score buf st h)
        · rw [if_neg hb]
          exact ih st _ h

/-- `PostingList::search` preserves the full invariant. -/
theorem posting_list_search_full (score : Nat → ℚ) (hf : ℚ)
    (st : SearchState) (blocks : List (ℚ × List Nat)) (h : FullInv st) :
    FullInv (posting_list_search score hf st blocks) := by
  rw [posting_list_search]
  exact foldl_eval_blocks_full score _ _ (foldl_gateStep_full score hf blocks st [] h)

/-- The fresh state satisfies the full invariant. -/
theorem initState_full (k : Nat) : FullInv (initState k) := by
  refine ⟨⟨List.nodup_nil, rfl, ?_, List.nodup_nil⟩, ?_, ?_⟩
  · intro o ho
    simp [initState] at ho
  · intro o ho
    simp [initState] at ho
  · intro b hb
    simp [initState] at hb

/-- Traversing any sequence of posting lists preserves the full invariant. -/
theorem foldl_posting_lists_full (score : Nat → ℚ) (hf : ℚ)
    (lists : List (List (ℚ × List Nat))) :
    ∀ st : SearchState, FullInv st →
      FullInv (lists.foldl (posting_list_search score hf) st) := by
  induction lists with
  | nil => exact fun st h => h
  | cons pl rest ih =>
      intro st h
      exact ih _ (posting_list_search_full score hf st pl h)

/-- The state after a whole traversal satisfies the full invariant. -/
theorem search_traverse_full (k : Nat) (hf : ℚ) (score : Nat → ℚ)
    (lists : List (List (ℚ × List Nat))) :
    FullInv (search_traverse k hf score lists) :=
  foldl_posting_lists_full score hf lists (initState k) (initState_full k)

/-- The result's offsets are those of the heap, reordered. -/
theorem search_result_offsets_nodup (st : SearchState)
    (h : (st.heap.map Prod.snd).Nodup) :
    ((search_result st).map Prod.snd).Nodup := by
  rw [search_result, List.map_map]
  have he : (Prod.snd ∘ fun e : ℚ × Nat => (|e.1|, e.2)) = Prod.snd := rfl
  rw [he]
  exact ((List.perm_insertionSort _ st.heap).map Prod.snd).nodup_iff.mpr h

/-- The query-cut scan over selected posting lists preserves the full
invariant whenever it completes. -/
theorem foldlM_search_full (score : Nat → ℚ) (hf : ℚ)
    (postingLists : List (List (ℚ × List Nat))) (pairs : List (Nat × ℚ)) :
    ∀ st st' : SearchState, FullInv st →
      pairs.foldlM (fun st p => (postingLists.get? p.1).map
        (fun pl => posting_list_search score hf st pl)) st = some st' →
      FullInv st' := by
  induction pairs with
  | nil =>
      intro st st' h hfold
      rw [List.foldlM_nil] at hfold
      exact (Option.some.inj hfold) ▸ h
  | cons p rest ih =>
      intro st st' h hfold
      rw [List.foldlM_cons] at hfold
      cases hg : postingLists.get? p.1 with
      | none => rw [hg] at hfold; cases hfold
      | some pl =>
          rw [hg] at hfold
          exact ih _ st' (posting_list_search_full score hf st pl h) hfold

/-- C2: within one `search` call, the `visited` set makes evaluation
idempotent per document: over any traversed posting lists, every document
offset is pushed onto the heap at most once — exactly once iff it occurs in
some evaluated block, however often it recurs across blocks and lists — and
the returned candidate list holds distinct document offsets. -/
theorem c2_search_visited_dedup :
    (∀ (k : Nat) (heapFactor : ℚ) (score : Nat → ℚ)
        (lists : List (List (ℚ × List Nat))),
      (search_traverse k heapFactor score lists).pushes.Nodup ∧
      (∀ o, o ∈ (search_traverse k heapFactor score lists).pushes ↔
        ∃ b ∈ (search_traverse k heapFactor score lists).evaluated, o ∈ b) ∧
      ((search_result (search_traverse k heapFactor score lists)).map
        Prod.snd).Nodup) ∧
    (∀ (k queryCut : Nat) (heapFactor : ℚ) (dim : Nat)
        (queryComponents : List Nat) (queryValues : List ℚ)
        (postingLists : List (List (ℚ × List Nat))) (score : Nat → ℚ)
        (res : List (ℚ × Nat)),
      search k queryCut heapFactor dim queryComponents queryValues
        postingLists score = some res →
      (res.map Prod.snd).Nodup) := by
  constructor
  · intro k hf score lists
    obtain ⟨⟨hnd, hvis, _, hheap⟩, h5, h6⟩ := search_traverse_full k hf score lists
    refine ⟨hnd, ?_, search_result_offsets_nodup _ hheap⟩
    intro o
    constructor
    · exact h5 o
    · rintro ⟨b, hb, hob⟩
      have : o ∈ (search_traverse k hf score lists).visited := h6 b hb o hob
      rw [hvis] at this
      exact List.mem_toFinset.mp this
  · intro k qcut hf dim qc qv postingLists score res hres
    rw [search] at hres
    obtain ⟨st', hst', hr⟩ := Option.map_eq_some'.mp hres
    obtain ⟨q, _, hfold⟩ := Option.bind_eq_some.mp hst'
    obtain ⟨⟨_, _, _, hheap⟩, _, _⟩ := foldlM_search_full score hf postingLists
      _ (initState k) st' (initState_full k) hfold
    exact hr ▸ search_result_offsets_nodup st' hheap

/-! ### Out-of-range query components (C7) -/

/-- A dead densify accumulator stays dead. -/
theorem densify_foldl_none (pairs : List (Nat × ℚ)) :
    pairs.foldl (fun (acc : Option (List ℚ)) p => acc.bind (fun q =>
      if p.1 < q.length then some (q.set p.1 p.2) else none))
      none = none := by
  induction pairs with
  | nil => rfl
  | cons p rest ih => rw [List.foldl_cons]; exact ih

/-- With an out-of-range pair somewhere in the query, the densify fold
panics. -/
theorem densify_foldl_oob (pairs : List (Nat × ℚ)) :
    ∀ q : List ℚ, (∃ p ∈ pairs, q.length ≤ p.1) →
      pairs.foldl (fun (acc : Option (List ℚ)) p => acc.bind (fun q =>
        if p.1 < q.length then some (q.set p.1 p.2) else none))
        (some q) = none := by
  induction pairs with
  | nil =>
      rintro q ⟨p, hp, _⟩
      exact absurd hp (List.not_mem_nil p)
  | cons p rest ih =>
      rintro q ⟨w, hw, hwo⟩
      rw [List.foldl_cons]
      by_cases hin : p.1 < q.length
      · have hq : (some q).bind (fun q =>
            if p.1 < q.length then some (q.set p.1 p.2) else none) =
            some (q.set p.1 p.2) := by
          rw [Option.some_bind, if_pos hin]
        rw [hq]
        rcases List.mem_cons.mp hw with rfl | hw
        · omega
        · exact ih (q.set p.1 p.2) ⟨w, hw, by rwa [List.length_set]⟩
      · have hq : (some q).bind (fun q =>
            if p.1 < q.length then some (q.set p.1 p.2) else none) = none := by
          rw [Option.some_bind, if_neg hin]
        rw [hq]
        exact densify_foldl_none rest

/-- C7 counterexample: a query holding component id `5` against an index of
dimension `2` makes `search` panic (`none`) — it is neither silently
truncated nor a non-fatal empty result. -/
theorem c7_oob_component_counterexample :
    search 2 2 1 2 [5] [1] [[(0, [0])], [(0, [1])]] (fun _ => 0) = none ∧
    search 2 2 1 2 [5] [1] [[(0, [0])], [(0, [1])]] (fun _ => 0) ≠
      some [] := by
  constructor
  · rfl
  · intro hc
    rw [show search 2 2 1 2 [5] [1] [[(0, [0])], [(0, [1])]] (fun _ => 0) =
      none from rfl] at hc
    cases hc

/-- C7 amended: whenever the query holds a component id `≥ dim` (paired with
a value), `InvertedIndex::search` panics on the out-of-bounds densify write
— the query is not truncated and the failure is fatal, not an empty
result. -/
theorem c7_oob_component_panics (k queryCut : Nat) (heapFactor : ℚ)
    (dim : Nat) (queryComponents : List Nat) (queryValues : List ℚ)
    (postingLists : List (List (ℚ × List Nat))) (score : Nat → ℚ)
    (h : ∃ p ∈ queryComponents.zip queryValues, dim ≤ p.1) :
    search k queryCut heapFactor dim queryComponents queryValues
      postingLists score = none := by
  have hd : densify dim queryComponents queryValues = none := by
    rw [densify]
    exact densify_foldl_oob _ (List.replicate dim 0)
      (by simpa [List.length_replicate] using h)
  rw [search, hd]
  rfl

/-- C7 amended witness: component id `7` against dimension `3`. -/
theorem c7_oob_component_panics_witness :
    (∃ p ∈ ([7] : List Nat).zip ([(1 : ℚ)]), 3 ≤ p.1) ∧
    search 1 1 1 3 [7] [(1 : ℚ)] [[(0, [0])], [(0, [1])], [(0, [2])]]
      (fun _ => 0) = none :=
  ⟨⟨(7, 1), by simp, by norm_num⟩,
    c7_oob_component_panics 1 1 1 3 [7] [(1 : ℚ)]
      [[(0, [0])], [(0, [1])], [(0, [2])]] (fun _ => 0)
      ⟨(7, 1), by simp, by norm_num⟩⟩

end Seismic
